import Mathlib

/-!
Verification of the txt-sentencers_cn utility.

The development shallowly embeds the two Go entry points of the repository:
`main.go` (the three-way sentence splitter) and the sibling `_sc` rewriter.
Go strings are modelled as `List Char` (the programs operate rune-wise:
`regexp` matches runes and every separator involved is a single rune), the
regex character classes become decidable character predicates, and the
regex replacements / scans become structural recursions over the character
list.  I/O is modelled by an environment record carrying the outcome of
each external call, and the exit status follows Go semantics: a `return`
from `main` terminates the process with status 0.
-/

namespace TxtSentencers

/-- Strings of the Go program, modelled as rune lists. -/
abbrev Str := List Char

/-- Inclusive range test on code points. -/
def between (lo hi n : Nat) : Bool := Nat.ble lo n && Nat.ble n hi

/-- Membership in the Unicode Han script, as used by Go's `\p{Han}`
(the `unicode.Han` range table; contemporary Unicode ranges). -/
def isHan (c : Char) : Bool :=
  let n := c.toNat
  between 0x2E80 0x2E99 n || between 0x2E9B 0x2EF3 n || between 0x2F00 0x2FD5 n ||
  between 0x3005 0x3005 n || between 0x3007 0x3007 n || between 0x3021 0x3029 n ||
  between 0x3038 0x303B n || between 0x3400 0x4DBF n || between 0x4E00 0x9FFF n ||
  between 0xF900 0xFA6D n || between 0xFA70 0xFAD9 n || between 0x20000 0x2A6DF n ||
  between 0x2A700 0x2B739 n || between 0x2B740 0x2B81D n || between 0x2B820 0x2CEA1 n ||
  between 0x2CEB0 0x2EBE0 n || between 0x2F800 0x2FA1D n || between 0x30000 0x3134A n ||
  between 0x31350 0x323AF n

/-- Go regexp's `\s` class (RE2): tab, newline, form feed, carriage return, space. -/
def isRegexSpace (c : Char) : Bool :=
  c.toNat == 9 || c.toNat == 10 || c.toNat == 12 || c.toNat == 13 || c.toNat == 32

/-- Go's `unicode.IsSpace` (the Unicode White_Space property), used by
`strings.TrimSpace`. -/
def isGoSpace (c : Char) : Bool :=
  let n := c.toNat
  n == 9 || n == 10 || n == 11 || n == 12 || n == 13 || n == 32 ||
  n == 0x85 || n == 0xA0 || n == 0x1680 || between 0x2000 0x200A n ||
  n == 0x2028 || n == 0x2029 || n == 0x202F || n == 0x205F || n == 0x3000

/-- The character class of `main.go`'s splitter regex
`([︱|丨，,，。.?？/\\、：;；:——……“"”！!])`, transcribed character by character
(duplicates kept). -/
def codeSplitterChars : List Char :=
  ['︱', '|', '丨', '，', ',', '，', '。', '.', '?', '？', '/', '\\',
   '、', '：', ';', '；', ':', '—', '—', '…', '…', '“', Char.ofNat 34, '”', '！', '!']

/-- The splitter-punctuation set exactly as the spec's table writes it:
`︱ | 丨 ， , 。 . ? ？ / \ 、 ： ; ； : —— …… " " ！ !` — note that both
quotation-mark entries are the ASCII quotation mark U+0022. -/
def claimedSplitterChars : List Char :=
  ['︱', '|', '丨', '，', ',', '。', '.', '?', '？', '/', '\\',
   '、', '：', ';', '；', ':', '—', '—', '…', '…', Char.ofNat 34, Char.ofNat 34, '！', '!']

/-- The claimed splitter set amended with the two curly quotation marks
U+201C and U+201D that the code's character class also contains. -/
def amendedSplitterChars : List Char := claimedSplitterChars ++ ['“', '”']

/-- Membership in the splitter character class of `main.go`. -/
def splitterClass (c : Char) : Bool := decide (c ∈ codeSplitterChars)

/-- The explicitly listed characters of the Chinese-run regex class
`[\p{Han}\d０-９。，！？：；（）【】《》“”‘’\-:.\s︱、\\]+` of `main.go`. -/
def chineseExtraChars : List Char :=
  ['。', '，', '！', '？', '：', '；', '（', '）', '【', '】', '《', '》',
   '“', '”', '‘', '’', '-', ':', '.', '︱', '、', '\\']

/-- The Chinese-run character class of `main.go`. -/
def chineseClass (c : Char) : Bool :=
  isHan c || between 48 57 c.toNat || between 0xFF10 0xFF19 c.toNat ||
  isRegexSpace c || decide (c ∈ chineseExtraChars)

/-- The explicitly listed characters of the Latin-run regex class
`[a-zA-Z0-9.,!?;:'"()\-:\s|\\]+` of `main.go`. -/
def latinExtraChars : List Char :=
  ['.', ',', '!', '?', ';', ':', Char.ofNat 39, Char.ofNat 34, '(', ')', '-', ':', '|', '\\']

/-- The Latin-run character class of `main.go`. -/
def latinClass (c : Char) : Bool :=
  between 97 122 c.toNat || between 65 90 c.toNat || between 48 57 c.toNat ||
  isRegexSpace c || decide (c ∈ latinExtraChars)

/-- The character class of the punctuation-only-line regex
`^[.,!?;:'【】。、：；……——！丨︱-]+$` of `main.go`, transcribed character by
character (duplicates kept). -/
def punctuationOnlyChars : List Char :=
  ['.', ',', '!', '?', ';', ':', Char.ofNat 39, '【', '】', '。', '、', '：', '；',
   '…', '…', '—', '—', '！', '丨', '︱', '-']

/-- The sibling mode's restricted Chinese-punctuation class
`([，。？：！；、……——])`, transcribed character by character. -/
def scChars : List Char :=
  ['，', '。', '？', '：', '！', '；', '、', '…', '…', '—', '—']

/-- The restricted subset as the claim writes it, `，。？：！；、……——`. -/
def claimedScChars : List Char :=
  ['，', '。', '？', '：', '！', '；', '、', '…', '…', '—', '—']

/-- Membership in the sibling mode's punctuation class. -/
def scClass (c : Char) : Bool := decide (c ∈ scChars)

/-- `strings.Split(s, "\n")` (and, with `'/'`, the slash decomposition of a
path): splitting a rune list at every occurrence of a separator rune. -/
def splitOnChar (sep : Char) : Str → List Str
  | [] => [[]]
  | c :: l =>
    if c = sep then [] :: splitOnChar sep l
    else
      match splitOnChar sep l with
      | [] => [[c]]
      | p :: ps => (c :: p) :: ps

/-- `strings.Join(ls, sep)` for a one-rune separator. -/
def joinWith (sep : Char) : List Str → Str
  | [] => []
  | [l] => l
  | l :: l₂ :: ls => l ++ sep :: joinWith sep (l₂ :: ls)

/-- `strings.TrimSpace`: strip `unicode.IsSpace` runes from both ends
(right trim, then left trim). -/
def trimSpace (s : Str) : Str :=
  ((s.reverse.dropWhile isGoSpace).reverse).dropWhile isGoSpace

/-- `splitAfterPunctuation` of `main.go`: the regex replacement
`re.ReplaceAllString(content, "$1\n")` for the single-rune class pattern —
a left-to-right scan that copies every rune and appends a newline after
each match of the class. -/
def splitAfterPunctuation : Str → Str
  | [] => []
  | c :: l =>
    if splitterClass c then c :: '\n' :: splitAfterPunctuation l
    else c :: splitAfterPunctuation l

/-- Whether `^[.,!?;:'【】。、：；……——！丨︱-]+$` matches a line: nonempty and
made of class characters only. -/
def punctOnlyMatch (t : Str) : Bool :=
  !t.isEmpty && t.all (fun c => decide (c ∈ punctuationOnlyChars))

/-- One iteration of `removeEmptyLines`' loop body: trim the line; keep the
trimmed line when it is nonempty. -/
def keepLine (line : Str) : Option Str :=
  let t := trimSpace line
  if t = [] then none else some t

/-- One iteration of `removePunctuationOnlyLines`' loop body: trim the
line; keep the trimmed line when it is nonempty and not punctuation-only. -/
def keepContentLine (line : Str) : Option Str :=
  let t := trimSpace line
  if t = [] then none
  else if punctOnlyMatch t then none
  else some t

/-- `removeEmptyLines` of `main.go`. -/
def removeEmptyLines (content : Str) : Str :=
  joinWith '\n' ((splitOnChar '\n' content).filterMap keepLine)

/-- `removePunctuationOnlyLines` of `main.go`. -/
def removePunctuationOnlyLines (content : Str) : Str :=
  joinWith '\n' ((splitOnChar '\n' content).filterMap keepContentLine)

/-- The cleaner: the punctuation-only filter followed by the empty-line
filter, exactly as the driver composes them (`writeCleanedContent` applies
`removeEmptyLines` to the output of `removePunctuationOnlyLines`). -/
def cleaner (content : Str) : Str :=
  removeEmptyLines (removePunctuationOnlyLines content)

/-- `joinLines` of `main.go`: `strings.Join(lines, "\n")`. -/
def joinLines (lines : List Str) : Str := joinWith '\n' lines

/-- The per-category pipeline of `main.go`: join, split after punctuation,
drop punctuation-only lines, drop empty lines; the result is the exact
text written to the category's output file. -/
def mainPipeline (segs : List Str) : Str :=
  removeEmptyLines (removePunctuationOnlyLines (splitAfterPunctuation (joinLines segs)))

/-- The lines that survive the cleaning of a category's buffer. -/
def mainSurvivors (segs : List Str) : List Str :=
  (splitOnChar '\n' (splitAfterPunctuation (joinLines segs))).filterMap keepContentLine

/-- Scanner for `FindAllString` with a `[class]+` pattern: a left-to-right
scan that accumulates the current maximal run of class characters
(`cur`, kept reversed) and emits it when the run ends. -/
def findRunsGo (cls : Char → Bool) : Str → Option Str → List Str
  | [], none => []
  | [], some r => [r.reverse]
  | c :: l, none =>
    if cls c then findRunsGo cls l (some [c]) else findRunsGo cls l none
  | c :: l, some r =>
    if cls c then findRunsGo cls l (some (c :: r))
    else r.reverse :: findRunsGo cls l none

/-- `regexp.MustCompile("[class]+").FindAllString(line, -1)`: the ordered
maximal runs of class characters in the line. -/
def findRuns (cls : Char → Bool) (s : Str) : List Str := findRunsGo cls s none

/-- One iteration of the driver's scan loop: extract the Chinese matches
and the Latin matches of the line and append them to the three
accumulators (Chinese, English, Combined — the Combined list receives the
Chinese matches first, then the Latin matches). -/
def driverStep (acc : List Str × List Str × List Str) (line : Str) :
    List Str × List Str × List Str :=
  let cm := findRuns chineseClass line
  let em := findRuns latinClass line
  (acc.1 ++ cm, acc.2.1 ++ em, acc.2.2 ++ (cm ++ em))

/-- The driver's accumulation over the whole input. -/
def driverAccum (lines : List Str) : List Str × List Str × List Str :=
  lines.foldl driverStep ([], [], [])

/-- The text written to `pure_chinese_sentences.txt`. -/
def chineseOutput (lines : List Str) : Str := mainPipeline (driverAccum lines).1

/-- The text written to `pure_english_sentences.txt`. -/
def englishOutput (lines : List Str) : Str := mainPipeline (driverAccum lines).2.1

/-- The text written to `combined_sentences.txt`. -/
def combinedOutput (lines : List Str) : Str := mainPipeline (driverAccum lines).2.2

/-- The lines present in a written file: an empty file holds no lines,
otherwise the newline decomposition of the content. -/
def fileLines (s : Str) : List Str :=
  if s = [] then [] else splitOnChar '\n' s

/-- Line count of a buffer. -/
def numLines (s : Str) : Nat := (splitOnChar '\n' s).length

/-- Insertion of a line terminator after every character of the spec's
literal splitter-punctuation set. -/
def claimedInsert (s : Str) : Str :=
  s.flatMap (fun c => if c ∈ claimedSplitterChars then [c, '\n'] else [c])

/-- Insertion of a line terminator after every character of the amended
splitter-punctuation set (the spec's set plus the curly quotes). -/
def amendedInsert (s : Str) : Str :=
  s.flatMap (fun c => if c ∈ amendedSplitterChars then [c, '\n'] else [c])

/-- A list of segments is the list of maximal class runs of `L`: `L`
decomposes into an alternation of non-class gaps and the segments, where
every segment is a nonempty all-class run and every gap lying between two
segments is nonempty. -/
def MaximalDecomp (cls : Char → Bool) (L : Str) (segs : List Str) : Prop :=
  ∃ (g0 : Str) (ps : List (Str × Str)), segs = ps.map Prod.fst
    ∧ L = g0 ++ ps.flatMap (fun q => q.1 ++ q.2)
    ∧ (∀ c ∈ g0, cls c = false)
    ∧ (∀ q ∈ ps, q.1 ≠ [] ∧ (∀ c ∈ q.1, cls c = true) ∧ (∀ c ∈ q.2, cls c = false))
    ∧ (∀ q ∈ ps.dropLast, q.2 ≠ [])

/-- The sibling mode's regex replacement: a newline after every rune of the
restricted Chinese-punctuation class. -/
def scSplit : Str → Str
  | [] => []
  | c :: l =>
    if scClass c then c :: '\n' :: scSplit l
    else c :: scSplit l

/-- `bufio.ScanLines` token post-processing: strip one trailing carriage
return. -/
def dropCR (l : Str) : Str :=
  if l.getLast? = some '\r' then l.dropLast else l

/-- The token sequence a `bufio.Scanner` with `ScanLines` yields on a
buffer: the newline-separated pieces, without a final empty token when the
buffer ends in a newline, each with one trailing carriage return
stripped. -/
def scanLines (s : Str) : List Str :=
  if s = [] then []
  else
    let ps := splitOnChar '\n' s
    (if ps.getLast? = some [] then ps.dropLast else ps).map dropCR

/-- The sibling mode's cleaned lines: scanner tokens, trimmed, empties
dropped. -/
def scCleanedLines (content : Str) : List Str :=
  (scanLines (scSplit content)).filterMap keepLine

/-- The text the sibling mode writes to its output file. -/
def scContent (content : Str) : Str := joinWith '\n' (scCleanedLines content)

/-- Insertion of a newline after every character of the claim's restricted
subset. -/
def claimedScInsert (s : Str) : Str :=
  s.flatMap (fun c => if c ∈ claimedScChars then [c, '\n'] else [c])

/-- The sibling transformation as the spec words it: insert newlines after
the restricted subset, then apply only the empty-line filter. -/
def scSpecContent (content : Str) : Str :=
  removeEmptyLines (claimedScInsert content)

/-- Keep a path component during cleaning: drop empty components and `.`
components. -/
def compKeep (c : Str) : Bool := !c.isEmpty && !(c == ['.'])

/-- The slash-separated components of a path that survive the first phase
of `filepath.Clean`. -/
def filteredComps (p : Str) : List Str :=
  (splitOnChar '/' p).filter compKeep

/-- One step of `filepath.Clean`'s component processing: `..` pops the last
component when one is there to pop, disappears at the root, and is kept
when nothing can be popped on a relative path. -/
def cleanStep (rooted : Bool) (acc : List Str) (c : Str) : List Str :=
  if c = ['.', '.'] then
    if acc = [] then (if rooted then [] else [c])
    else if acc.getLast? = some ['.', '.'] then acc ++ [c]
    else acc.dropLast
  else acc ++ [c]

/-- `filepath.Clean`'s component processing. -/
def cleanComps (rooted : Bool) (cs : List Str) : List Str :=
  cs.foldl (cleanStep rooted) []

/-- Reassembly phase of `filepath.Clean` from rootedness and surviving
components. -/
def cleanFrom (rooted : Bool) (cs : List Str) : Str :=
  let out := cleanComps rooted cs
  let s := (if rooted then ['/'] else []) ++ joinWith '/' out
  if s = [] then ['.'] else s

/-- `filepath.Clean` (Unix separator): lexical normalization of a path. -/
def clean (p : Str) : Str :=
  if p = [] then ['.']
  else cleanFrom (decide (p.head? = some '/')) (filteredComps p)

/-- `filepath.Ext`: the suffix of the final path element starting at its
last dot; empty when the final element has no dot. -/
def goExt (p : Str) : Str :=
  let elemRev := p.reverse.takeWhile (fun c => !(c == '/'))
  if elemRev.any (fun c => c == '.') then
    ((elemRev.takeWhile (fun c => !(c == '.'))) ++ ['.']).reverse
  else []

/-- `filepath.Base` (Unix): the final element of the path after trailing
slashes are removed; `.` for the empty path, `/` for an all-slash path. -/
def goBase (p : Str) : Str :=
  if p = [] then ['.']
  else
    let q := p.reverse.dropWhile (fun c => c == '/')
    if q = [] then ['/']
    else (q.takeWhile (fun c => !(c == '/'))).reverse

/-- The prefix of a path up to and including its last slash (`path[:i+1]`
in Go's `filepath.Dir`); empty when the path has no slash. -/
def dirPart (p : Str) : Str :=
  (p.reverse.dropWhile (fun c => !(c == '/'))).reverse

/-- `filepath.Dir` (Unix). -/
def goDir (p : Str) : Str := clean (dirPart p)

/-- `filepath.Join` of two elements: clean the slash-joined nonempty
elements; empty when both are empty. -/
def goJoin2 (a b : Str) : Str :=
  if a = [] then (if b = [] then [] else clean b)
  else clean (a ++ '/' :: b)

/-- `strings.TrimSuffix`. -/
def trimSuffixStr (s suf : Str) : Str :=
  if suf.isSuffixOf s then s.take (s.length - suf.length) else s

/-- The `_sc` marker the sibling mode inserts into the output file name. -/
def scSuffix : Str := ['_', 's', 'c']

/-- The sibling mode's output path:
`filepath.Join(Dir(p), TrimSuffix(Base(p), Ext(p)) + "_sc" + Ext(p))`. -/
def siblingOutPath (p : Str) : Str :=
  goJoin2 (goDir p) (trimSuffixStr (goBase p) (goExt p) ++ scSuffix ++ goExt p)

/-- Outcome of every external call `main.go` performs: the picker, the
input open, the scan of the input, and the three output writes (`none`
means the call succeeded). -/
structure RunEnv where
  pickErr : Option Str
  pickPath : Str
  openErr : Option Str
  readErr : Option Str
  writeChineseErr : Option Str
  writeEnglishErr : Option Str
  writeCombinedErr : Option Str

/-- The control flow of `main.go`'s `main`: the messages it prints and the
process exit status.  Every failure branch prints and executes `return`;
a `return` from Go's `main` terminates the process with status 0, and
`os.Exit` is never called. -/
def runMain (env : RunEnv) : Nat × List Str :=
  let m0 := ["Select the input file:".toList]
  match env.pickErr with
  | some e => (0, m0 ++ ["Error selecting input file: ".toList ++ e])
  | none =>
    if env.pickPath = [] then (0, m0 ++ ["No input file selected.".toList])
    else
      let m1 := m0 ++ ["Selected input file: ".toList ++ env.pickPath]
      match env.openErr with
      | some e => (0, m1 ++ ["Error opening input file: ".toList ++ e])
      | none =>
        match env.readErr with
        | some e => (0, m1 ++ ["Error reading input file: ".toList ++ e])
        | none =>
          match env.writeChineseErr with
          | some e => (0, m1 ++ ["Error writing to Chinese sentences file: ".toList ++ e])
          | none =>
            match env.writeEnglishErr with
            | some e => (0, m1 ++ ["Error writing to English sentences file: ".toList ++ e])
            | none =>
              match env.writeCombinedErr with
              | some e => (0, m1 ++ ["Error writing to Combined sentences file: ".toList ++ e])
              | none => (0, m1 ++ ["All output files written and cleaned successfully!".toList])

/-- Whether the run reaches an error: mirrors `runMain`'s control flow
(a later failure is encountered only when every earlier call succeeds and
a file was picked). -/
def encounteredError (env : RunEnv) : Bool :=
  match env.pickErr with
  | some _ => true
  | none =>
    if env.pickPath = [] then false
    else
      match env.openErr with
      | some _ => true
      | none =>
        match env.readErr with
        | some _ => true
        | none =>
          match env.writeChineseErr with
          | some _ => true
          | none =>
            match env.writeEnglishErr with
            | some _ => true
            | none =>
              match env.writeCombinedErr with
              | some _ => true
              | none => false

/-- The prefix every error report of `main.go` starts with. -/
def errTag : Str := "Error".toList

/-- A concrete run in which opening the input file fails. -/
def envOpenFail : RunEnv :=
  ⟨none, "in.txt".toList, some "no such file".toList, none, none, none, none⟩

theorem splitOnChar_ne_nil (sep : Char) (s : Str) : splitOnChar sep s ≠ [] := by
  induction s with
  | nil => simp [splitOnChar]
  | cons c l ih =>
    simp only [splitOnChar]
    split
    · simp
    · cases h : splitOnChar sep l with
      | nil => simp
      | cons p ps => simp

theorem mem_splitOnChar_not_sep {sep : Char} {s l : Str}
    (h : l ∈ splitOnChar sep s) : sep ∉ l := by
  induction s generalizing l with
  | nil =>
    simp [splitOnChar] at h
    subst h; simp
  | cons c t ih =>
    simp only [splitOnChar] at h
    by_cases hc : c = sep
    · rw [if_pos hc] at h
      rcases List.mem_cons.mp h with h1 | h1
      · subst h1; simp
      · exact ih h1
    · rw [if_neg hc] at h
      cases hsp : splitOnChar sep t with
      | nil => exact absurd hsp (splitOnChar_ne_nil sep t)
      | cons p ps =>
        rw [hsp] at h
        rcases List.mem_cons.mp h with h1 | h1
        · subst h1
          intro hmem
          rcases List.mem_cons.mp hmem with h2 | h2
          · exact hc h2.symm
          · exact ih (l := p) (by rw [hsp]; exact List.mem_cons_self p ps) h2
        · exact ih (by rw [hsp]; exact List.mem_cons.mpr (Or.inr h1))

theorem splitOnChar_single {sep : Char} {s : Str} (h : sep ∉ s) :
    splitOnChar sep s = [s] := by
  induction s with
  | nil => rfl
  | cons c l ih =>
    have hc : c ≠ sep := fun e => h (e ▸ List.mem_cons_self c l)
    have hl : sep ∉ l := fun hm => h (List.mem_cons_of_mem c hm)
    simp only [splitOnChar, if_neg hc, ih hl]

theorem splitOnChar_append (sep : Char) (a b : Str) :
    splitOnChar sep (a ++ sep :: b) = splitOnChar sep a ++ splitOnChar sep b := by
  induction a with
  | nil => simp [splitOnChar]
  | cons c a' ih =>
    by_cases hc : c = sep
    · simp only [List.cons_append, splitOnChar, if_pos hc, List.append_eq, ih]
    · cases h : splitOnChar sep a' with
      | nil => exact absurd h (splitOnChar_ne_nil sep a')
      | cons p ps =>
        simp only [List.cons_append, splitOnChar, if_neg hc, List.append_eq, ih, h,
          List.cons_append]

theorem splitOnChar_joinWith {sep : Char} : ∀ {ls : List Str}, ls ≠ [] →
    (∀ l ∈ ls, sep ∉ l) → splitOnChar sep (joinWith sep ls) = ls := by
  intro ls
  induction ls with
  | nil => intro h; exact absurd rfl h
  | cons l t ih =>
    intro _ h2
    cases t with
    | nil => simpa [joinWith] using splitOnChar_single (h2 l (by simp))
    | cons l₂ t' =>
      have h2' : ∀ x ∈ l₂ :: t', sep ∉ x := fun x hx => h2 x (List.mem_cons_of_mem l hx)
      simp only [joinWith]
      rw [splitOnChar_append, splitOnChar_single (h2 l (by simp)), ih (by simp) h2']
      rfl

theorem joinWith_concat {sep : Char} : ∀ {ls : List Str}, ls ≠ [] → ∀ (x : Str),
    joinWith sep (ls ++ [x]) = joinWith sep ls ++ sep :: x := by
  intro ls
  induction ls with
  | nil => intro h; exact absurd rfl h
  | cons l t ih =>
    intro _ x
    cases t with
    | nil => rfl
    | cons l₂ t' =>
      have hrec := ih (by simp) x
      simp only [List.cons_append, joinWith, List.append_eq] at hrec ⊢
      rw [hrec]
      simp

theorem joinWith_ne_nil {sep : Char} {ls : List Str} (h : ls ≠ [])
    (h2 : ∀ l ∈ ls, l ≠ []) : joinWith sep ls ≠ [] := by
  cases ls with
  | nil => exact absurd rfl h
  | cons l t =>
    cases t with
    | nil => exact h2 l (by simp)
    | cons l₂ t' => simp [joinWith]

theorem getLast?_joinWith_mem {sep : Char} : ∀ {ls : List Str}, (∀ l ∈ ls, l ≠ []) →
    ∀ {c : Char}, (joinWith sep ls).getLast? = some c → ∃ l ∈ ls, l.getLast? = some c := by
  intro ls
  induction ls with
  | nil => intro _ c h; simp [joinWith] at h
  | cons l t ih =>
    intro hne c h
    cases t with
    | nil => exact ⟨l, by simp, by simpa [joinWith] using h⟩
    | cons l₂ t' =>
      have hj : joinWith sep (l₂ :: t') ≠ [] :=
        joinWith_ne_nil (by simp) (fun x hx => hne x (List.mem_cons_of_mem l hx))
      simp only [joinWith] at h
      rw [List.getLast?_append] at h
      obtain ⟨j, J', hJ⟩ : ∃ j J', joinWith sep (l₂ :: t') = j :: J' := by
        cases hJ : joinWith sep (l₂ :: t') with
        | nil => exact absurd hJ hj
        | cons j J' => exact ⟨j, J', rfl⟩
      rw [hJ, List.getLast?_cons_cons] at h
      have hJl : (j :: J').getLast? = some c := by
        cases hgl : (j :: J').getLast? with
        | none => simp [List.getLast?_eq_none_iff] at hgl
        | some c' =>
          rw [hgl] at h
          simpa using h
      obtain ⟨x, hx, hxl⟩ := ih (fun y hy => hne y (List.mem_cons_of_mem l hy))
        (by rw [hJ]; exact hJl)
      exact ⟨x, List.mem_cons_of_mem l hx, hxl⟩

theorem dropWhile_head?_false {p : Char → Bool} : ∀ {l : Str} {c : Char},
    (l.dropWhile p).head? = some c → p c = false := by
  intro l
  induction l with
  | nil => intro c h; simp [List.dropWhile] at h
  | cons a t ih =>
    intro c h
    by_cases hp : p a
    · rw [List.dropWhile_cons_of_pos hp] at h; exact ih h
    · rw [List.dropWhile_cons_of_neg hp] at h
      rw [List.head?_cons] at h
      cases h
      simpa using hp

theorem dropWhile_eq_self_of_head? {p : Char → Bool} {l : Str}
    (h : ∀ c, l.head? = some c → p c = false) : l.dropWhile p = l := by
  cases l with
  | nil => rfl
  | cons a t =>
    have := h a rfl
    simp [List.dropWhile_cons, this]

theorem getLast?_dropWhile {p : Char → Bool} {l : Str} {c : Char}
    (h : (l.dropWhile p).getLast? = some c) : l.getLast? = some c := by
  obtain ⟨t, ht⟩ := List.dropWhile_suffix (l := l) p
  rw [← ht, List.getLast?_append, h]
  rfl

theorem trimSpace_head? {s : Str} {c : Char} (h : (trimSpace s).head? = some c) :
    isGoSpace c = false := dropWhile_head?_false h

theorem trimSpace_getLast? {s : Str} {c : Char} (h : (trimSpace s).getLast? = some c) :
    isGoSpace c = false := by
  have h1 : ((s.reverse.dropWhile isGoSpace).reverse).getLast? = some c := getLast?_dropWhile h
  rw [List.getLast?_reverse] at h1
  exact dropWhile_head?_false h1

theorem trimSpace_idem (s : Str) : trimSpace (trimSpace s) = trimSpace s := by
  cases hr : trimSpace s with
  | nil => rfl
  | cons a t =>
    have hhead : isGoSpace a = false := trimSpace_head? (by rw [hr]; rfl)
    have hlast : ∀ c, (a :: t).getLast? = some c → isGoSpace c = false := by
      intro c hc
      exact trimSpace_getLast? (by rw [hr]; exact hc)
    have h1 : (a :: t).reverse.dropWhile isGoSpace = (a :: t).reverse := by
      apply dropWhile_eq_self_of_head?
      intro c hc
      rw [List.head?_reverse] at hc
      exact hlast c hc
    show ((a :: t).reverse.dropWhile isGoSpace).reverse.dropWhile isGoSpace = a :: t
    rw [h1, List.reverse_reverse]
    apply dropWhile_eq_self_of_head?
    intro c hc
    rw [List.head?_cons] at hc
    cases hc
    exact hhead

theorem trimSpace_subset (s : Str) : trimSpace s ⊆ s := by
  intro c hc
  have h1 : c ∈ (s.reverse.dropWhile isGoSpace).reverse :=
    (List.dropWhile_sublist isGoSpace).subset hc
  rw [List.mem_reverse] at h1
  have h2 : c ∈ s.reverse := (List.dropWhile_sublist isGoSpace).subset h1
  rwa [List.mem_reverse] at h2

theorem filterMap_eq_self {f : Str → Option Str} : ∀ {l : List Str},
    (∀ a ∈ l, f a = some a) → l.filterMap f = l := by
  intro l
  induction l with
  | nil => intro _; rfl
  | cons a t ih =>
    intro h
    simp only [List.filterMap_cons, h a (List.mem_cons_self a t)]
    rw [ih (fun x hx => h x (List.mem_cons_of_mem a hx))]

theorem takeWhile_all {p : Char → Bool} : ∀ {a : Str},
    (∀ c ∈ a, p c = true) → a.takeWhile p = a := by
  intro a
  induction a with
  | nil => intro _; rfl
  | cons x t ih =>
    intro h
    simp [List.takeWhile_cons, h x (List.mem_cons_self x t),
      ih (fun c hc => h c (List.mem_cons_of_mem x hc))]

theorem dropWhile_all_nil {p : Char → Bool} : ∀ {a : Str},
    (∀ c ∈ a, p c = true) → a.dropWhile p = [] := by
  intro a
  induction a with
  | nil => intro _; rfl
  | cons x t ih =>
    intro h
    simp [List.dropWhile_cons, h x (List.mem_cons_self x t),
      ih (fun c hc => h c (List.mem_cons_of_mem x hc))]

theorem takeWhile_append_all {p : Char → Bool} {x : Char} (hx : p x = false) :
    ∀ {a : Str}, (∀ c ∈ a, p c = true) → ∀ t, (a ++ x :: t).takeWhile p = a := by
  intro a
  induction a with
  | nil => intro _ t; simp [List.takeWhile_cons, hx]
  | cons c a' ih =>
    intro h t
    simp [List.takeWhile_cons, h c (List.mem_cons_self c a'),
      ih (fun d hd => h d (List.mem_cons_of_mem c hd)) t]

theorem dropWhile_append_all {p : Char → Bool} : ∀ {a : Str},
    (∀ c ∈ a, p c = true) → ∀ t, (a ++ t).dropWhile p = t.dropWhile p := by
  intro a
  induction a with
  | nil => intro _ t; rfl
  | cons c a' ih =>
    intro h t
    simp only [List.cons_append, List.dropWhile_cons_of_pos (h c (List.mem_cons_self c a'))]
    exact ih (fun d hd => h d (List.mem_cons_of_mem c hd)) t

theorem mem_filterMap_keepContent {x k : Str}
    (h : k ∈ (splitOnChar '\n' x).filterMap keepContentLine) :
    trimSpace k = k ∧ k ≠ [] ∧ punctOnlyMatch k = false ∧ '\n' ∉ k := by
  rw [List.mem_filterMap] at h
  obtain ⟨line, hmem, hf⟩ := h
  simp only [keepContentLine] at hf
  by_cases h1 : trimSpace line = []
  · rw [if_pos h1] at hf; simp at hf
  · rw [if_neg h1] at hf
    by_cases h2 : punctOnlyMatch (trimSpace line) = true
    · rw [if_pos h2] at hf; simp at hf
    · rw [if_neg h2] at hf
      have hk : trimSpace line = k := by injection hf
      refine ⟨?_, ?_, ?_, ?_⟩
      · rw [← hk]; exact trimSpace_idem line
      · rw [← hk]; exact h1
      · rw [← hk]; simpa using h2
      · rw [← hk]
        intro hmem2
        exact (mem_splitOnChar_not_sep hmem) (trimSpace_subset line hmem2)

theorem mem_filterMap_keep {x k : Str}
    (h : k ∈ (splitOnChar '\n' x).filterMap keepLine) :
    trimSpace k = k ∧ k ≠ [] ∧ '\n' ∉ k := by
  rw [List.mem_filterMap] at h
  obtain ⟨line, hmem, hf⟩ := h
  simp only [keepLine] at hf
  by_cases h1 : trimSpace line = []
  · rw [if_pos h1] at hf; simp at hf
  · rw [if_neg h1] at hf
    have hk : trimSpace line = k := by injection hf
    refine ⟨?_, ?_, ?_⟩
    · rw [← hk]; exact trimSpace_idem line
    · rw [← hk]; exact h1
    · rw [← hk]
      intro hmem2
      exact (mem_splitOnChar_not_sep hmem) (trimSpace_subset line hmem2)

theorem removeEmptyLines_joinWith {ls : List Str}
    (h : ∀ k ∈ ls, trimSpace k = k ∧ k ≠ [] ∧ '\n' ∉ k) :
    removeEmptyLines (joinWith '\n' ls) = joinWith '\n' ls := by
  cases ls with
  | nil => decide
  | cons l t =>
    have hsep : ∀ k ∈ l :: t, '\n' ∉ k := fun k hk => (h k hk).2.2
    unfold removeEmptyLines
    rw [splitOnChar_joinWith (by simp) hsep]
    rw [filterMap_eq_self]
    intro a ha
    have h1 := (h a ha).1
    have h2 := (h a ha).2.1
    simp only [keepLine, h1, if_neg h2]

theorem removePunctuationOnlyLines_joinWith {ls : List Str}
    (h : ∀ k ∈ ls, trimSpace k = k ∧ k ≠ [] ∧ punctOnlyMatch k = false ∧ '\n' ∉ k) :
    removePunctuationOnlyLines (joinWith '\n' ls) = joinWith '\n' ls := by
  cases ls with
  | nil => decide
  | cons l t =>
    have hsep : ∀ k ∈ l :: t, '\n' ∉ k := fun k hk => (h k hk).2.2.2
    unfold removePunctuationOnlyLines
    rw [splitOnChar_joinWith (by simp) hsep]
    rw [filterMap_eq_self]
    intro a ha
    have h1 := (h a ha).1
    have h2 := (h a ha).2.1
    have h3 := (h a ha).2.2.1
    simp only [keepContentLine, h1, if_neg h2, h3, if_neg (by simp : ¬False)]
    rw [if_neg]
    simp [h3]

theorem mainPipeline_eq_joinWith (segs : List Str) :
    mainPipeline segs = joinWith '\n' (mainSurvivors segs) := by
  have hks : ∀ k ∈ mainSurvivors segs,
      trimSpace k = k ∧ k ≠ [] ∧ punctOnlyMatch k = false ∧ '\n' ∉ k :=
    fun k hk => mem_filterMap_keepContent hk
  show removeEmptyLines (removePunctuationOnlyLines _) = _
  have h1 : removePunctuationOnlyLines (splitAfterPunctuation (joinLines segs)) =
      joinWith '\n' (mainSurvivors segs) := rfl
  rw [h1]
  exact removeEmptyLines_joinWith (fun k hk =>
    ⟨(hks k hk).1, (hks k hk).2.1, (hks k hk).2.2.2⟩)

theorem findRunsGo_some (cls : Char → Bool) : ∀ (l r : Str),
    findRunsGo cls l (some r) =
      (r.reverse ++ l.takeWhile cls) :: findRunsGo cls (l.dropWhile cls) none := by
  intro l
  induction l with
  | nil => intro r; simp [findRunsGo]
  | cons c t ih =>
    intro r
    by_cases hc : cls c = true
    · simp only [findRunsGo, if_pos hc, ih (c :: r), List.takeWhile_cons, hc,
        List.dropWhile_cons, List.reverse_cons, if_true]
      simp
    · have hc' : cls c = false := by simpa using hc
      simp [findRunsGo, List.takeWhile_cons, List.dropWhile_cons, hc']

theorem findRuns_cons_neg {cls : Char → Bool} {c : Char} (hc : cls c = false) (l : Str) :
    findRuns cls (c :: l) = findRuns cls l := by
  simp [findRuns, findRunsGo, hc]

theorem findRuns_cons_pos {cls : Char → Bool} {c : Char} (hc : cls c = true) (l : Str) :
    findRuns cls (c :: l) = (c :: l.takeWhile cls) :: findRuns cls (l.dropWhile cls) := by
  simp [findRuns, findRunsGo, hc, findRunsGo_some]

theorem runs_decomp (cls : Char → Bool) : ∀ (n : Nat) (L : Str), L.length ≤ n →
    MaximalDecomp cls L (findRuns cls L) := by
  intro n
  induction n with
  | zero =>
    intro L hL
    have hL0 : L = [] := List.eq_nil_of_length_eq_zero (Nat.le_zero.mp hL)
    subst hL0
    exact ⟨[], [], by simp [findRuns, findRunsGo], by simp, by simp, by simp, by simp⟩
  | succ n ih =>
    intro L hL
    cases L with
    | nil => exact ⟨[], [], by simp [findRuns, findRunsGo], by simp, by simp, by simp, by simp⟩
    | cons c l =>
      have hl : l.length ≤ n := by
        have := hL
        simp only [List.length_cons] at this
        omega
      by_cases hc : cls c = true
      · obtain ⟨g0, ps, hseg, hL2, hg0, hps, hinter⟩ :=
          ih (l.dropWhile cls) (le_trans ((List.dropWhile_sublist cls).length_le) hl)
        have htd : l.takeWhile cls ++ l.dropWhile cls = l := List.takeWhile_append_dropWhile cls l
        have hg0ps : g0 = [] → ps = [] := by
          intro hg
          by_contra hne
          obtain ⟨q, qs, hq⟩ : ∃ q qs, ps = q :: qs := by
            cases ps with
            | nil => exact absurd rfl hne
            | cons q qs => exact ⟨q, qs, rfl⟩
          obtain ⟨hq1ne, hq1cls, _⟩ := hps q (by rw [hq]; exact List.mem_cons_self q qs)
          obtain ⟨d, ds, hd⟩ : ∃ d ds, q.1 = d :: ds := by
            cases hq1 : q.1 with
            | nil => exact absurd hq1 hq1ne
            | cons d ds => exact ⟨d, ds, rfl⟩
          have hdcls : cls d = true := hq1cls d (by rw [hd]; exact List.mem_cons_self d ds)
          have hhead : (l.dropWhile cls).head? = some d := by
            rw [hL2, hg, hq, List.nil_append, List.flatMap_cons, hd]
            simp
          have hfd := dropWhile_head?_false hhead
          rw [hdcls] at hfd
          exact absurd hfd (by simp)
        rw [findRuns_cons_pos hc]
        cases hps0 : ps with
        | nil =>
          rw [hps0] at hL2
          simp only [List.flatMap_nil, List.append_nil] at hL2
          refine ⟨[], [(c :: l.takeWhile cls, g0)], ?_, ?_, ?_, ?_, ?_⟩
          · rw [hseg, hps0]; rfl
          · simp only [List.flatMap_cons, List.flatMap_nil, List.append_nil, List.nil_append]
            rw [← hL2, List.cons_append, htd]
          · simp
          · intro q hq
            rw [List.mem_singleton] at hq
            subst hq
            refine ⟨by simp, ?_, hg0⟩
            intro d hd
            rcases List.mem_cons.mp hd with h | h
            · subst h; exact hc
            · exact List.mem_takeWhile_imp h
          · simp
        | cons q qs =>
          have hg0ne : g0 ≠ [] := by
            intro hg
            have h1 := hg0ps hg
            rw [h1] at hps0
            exact List.noConfusion hps0
          refine ⟨[], (c :: l.takeWhile cls, g0) :: ps, ?_, ?_, ?_, ?_, ?_⟩
          · rw [hseg]; rfl
          · simp only [List.flatMap_cons, List.nil_append]
            rw [List.append_assoc, ← hL2, List.cons_append, htd]
          · simp
          · intro q' hq'
            rcases List.mem_cons.mp hq' with h | h
            · subst h
              refine ⟨by simp, ?_, hg0⟩
              intro d hd
              rcases List.mem_cons.mp hd with h2 | h2
              · subst h2; exact hc
              · exact List.mem_takeWhile_imp h2
            · exact hps q' h
          · intro q' hq'
            rw [hps0, List.dropLast_cons₂] at hq'
            rcases List.mem_cons.mp hq' with h | h
            · subst h; exact hg0ne
            · exact hinter q' (by rw [hps0]; exact h)
      · have hc' : cls c = false := by simpa using hc
        rw [findRuns_cons_neg hc']
        obtain ⟨g0, ps, hseg, hL2, hg0, hps, hinter⟩ := ih l hl
        refine ⟨c :: g0, ps, hseg, ?_, ?_, hps, hinter⟩
        · rw [List.cons_append, ← hL2]
        · intro d hd
          rcases List.mem_cons.mp hd with h | h
          · subst h; exact hc'
          · exact hg0 d h

theorem flatten_map_fst_sublist : ∀ (ps : List (Str × Str)),
    (ps.map Prod.fst).flatten.Sublist (ps.flatMap (fun q => q.1 ++ q.2)) := by
  intro ps
  induction ps with
  | nil => simp
  | cons q t ih =>
    simp only [List.map_cons, List.flatten_cons, List.flatMap_cons]
    rw [List.append_assoc]
    exact (List.append_sublist_append_left q.1).mpr
      (ih.trans (List.sublist_append_right q.2 _))

theorem driverAccum_go : ∀ (lines : List Str) (a b c : List Str),
    lines.foldl driverStep (a, b, c) =
      (a ++ lines.flatMap (fun l => findRuns chineseClass l),
       b ++ lines.flatMap (fun l => findRuns latinClass l),
       c ++ lines.flatMap (fun l => findRuns chineseClass l ++ findRuns latinClass l)) := by
  intro lines
  induction lines with
  | nil => intro a b c; simp
  | cons L t ih =>
    intro a b c
    simp only [List.foldl_cons, driverStep, List.flatMap_cons]
    rw [ih]
    simp [List.append_assoc]

theorem length_splitOnChar (sep : Char) (s : Str) :
    (splitOnChar sep s).length = s.count sep + 1 := by
  induction s with
  | nil => simp [splitOnChar]
  | cons c l ih =>
    rw [List.count_cons]
    by_cases hc : c = sep
    · subst hc
      simp only [splitOnChar, if_pos rfl, List.length_cons, ih, beq_self_eq_true, if_true]
    · have hbeq : (c == sep) = false := beq_eq_false_iff_ne.mpr hc
      cases h : splitOnChar sep l with
      | nil => exact absurd h (splitOnChar_ne_nil sep l)
      | cons p ps =>
        have hlen := ih
        rw [h] at hlen
        simp only [splitOnChar, if_neg hc, h, List.length_cons, hbeq]
        simp only [List.length_cons] at hlen
        simp only [Bool.false_eq_true, if_false]
        omega

theorem count_splitAfterPunctuation (s : Str) :
    s.count '\n' ≤ (splitAfterPunctuation s).count '\n' := by
  induction s with
  | nil => simp [splitAfterPunctuation]
  | cons c l ih =>
    by_cases hc : splitterClass c = true
    · simp only [splitAfterPunctuation, if_pos hc, List.count_cons, beq_self_eq_true, if_true]
      by_cases hnl : (c == '\n') = true <;> simp [hnl] <;> omega
    · simp only [splitAfterPunctuation, if_neg hc, List.count_cons]
      by_cases hnl : (c == '\n') = true <;> simp [hnl] <;> omega

theorem splitterClass_iff_amended (c : Char) :
    splitterClass c = decide (c ∈ amendedSplitterChars) := by
  have h1 : ∀ a ∈ codeSplitterChars, a ∈ amendedSplitterChars := by decide
  have h2 : ∀ a ∈ amendedSplitterChars, a ∈ codeSplitterChars := by decide
  unfold splitterClass
  exact decide_eq_decide.mpr ⟨fun h => h1 c h, fun h => h2 c h⟩

theorem scSplit_eq_claimedScInsert (s : Str) : scSplit s = claimedScInsert s := by
  induction s with
  | nil => rfl
  | cons c l ih =>
    by_cases hm : c ∈ claimedScChars
    · have hcls : scClass c = true := decide_eq_true hm
      simp [scSplit, claimedScInsert, hcls, if_pos hm, List.flatMap_cons, ih]
    · have hcls : scClass c = false := decide_eq_false hm
      simp [scSplit, claimedScInsert, hcls, if_neg hm, List.flatMap_cons, ih]

theorem trimSpace_concat_space {y : Str} {d : Char} (hd : isGoSpace d = true) :
    trimSpace (y ++ [d]) = trimSpace y := by
  unfold trimSpace
  rw [List.reverse_append]
  simp only [List.reverse_cons, List.reverse_nil, List.nil_append, List.singleton_append]
  rw [List.dropWhile_cons_of_pos hd]

theorem dropLast_concat_getLast? {α : Type} : ∀ {l : List α} {a : α},
    l.getLast? = some a → l.dropLast ++ [a] = l := by
  intro l
  induction l with
  | nil => intro a h; simp at h
  | cons x t ih =>
    intro a h
    cases t with
    | nil =>
      simp only [List.getLast?_singleton, Option.some.injEq] at h
      subst h
      rfl
    | cons y t' =>
      rw [List.getLast?_cons_cons] at h
      have hrec := ih h
      rw [List.dropLast_cons₂, List.cons_append, hrec]

theorem keepLine_dropCR (l : Str) : keepLine (dropCR l) = keepLine l := by
  unfold dropCR
  by_cases h : l.getLast? = some '\r'
  · rw [if_pos h]
    have hl : l.dropLast ++ ['\r'] = l := dropLast_concat_getLast? h
    have htrim : trimSpace l.dropLast = trimSpace l := by
      conv_rhs => rw [← hl]
      rw [trimSpace_concat_space (by decide)]
    unfold keepLine
    rw [htrim]
  · rw [if_neg h]

theorem filterMap_keepLine_scanLines (x : Str) :
    (scanLines x).filterMap keepLine = (splitOnChar '\n' x).filterMap keepLine := by
  unfold scanLines
  by_cases hx : x = []
  · rw [if_pos hx]; subst hx; decide
  · rw [if_neg hx]
    have hmap : ∀ (ps : List Str), (ps.map dropCR).filterMap keepLine = ps.filterMap keepLine := by
      intro ps
      induction ps with
      | nil => rfl
      | cons p t ih => simp [List.map_cons, List.filterMap_cons, keepLine_dropCR p, ih]
    rw [hmap]
    by_cases hlast : (splitOnChar '\n' x).getLast? = some []
    · rw [if_pos hlast]
      have hps := dropLast_concat_getLast? hlast
      conv_rhs => rw [← hps]
      rw [List.filterMap_append]
      have hnil : keepLine ([] : Str) = none := rfl
      simp [List.filterMap_cons, hnil]
    · rw [if_neg hlast]

theorem scContent_eq_spec (content : Str) : scContent content = scSpecContent content := by
  unfold scContent scCleanedLines scSpecContent removeEmptyLines
  rw [filterMap_keepLine_scanLines, scSplit_eq_claimedScInsert]

theorem mem_of_head? {α : Type} {l : List α} {a : α} (h : l.head? = some a) : a ∈ l := by
  cases l with
  | nil => simp at h
  | cons x t =>
    rw [List.head?_cons] at h
    obtain rfl : x = a := Option.some.inj h
    exact List.mem_cons_self x t

theorem head?_append_left {l x : Str} (h : l ≠ []) : (l ++ x).head? = l.head? := by
  cases l with
  | nil => exact absurd rfl h
  | cons a t => rfl

theorem cleanFrom_ne_nil (b : Bool) (cs : List Str) : cleanFrom b cs ≠ [] := by
  simp only [cleanFrom]
  by_cases hs : ((if b = true then (['/'] : Str) else []) ++
      joinWith '/' (cleanComps b cs)) = []
  · rw [if_pos hs]
    simp
  · rw [if_neg hs]
    exact hs

theorem clean_ne_nil (p : Str) : clean p ≠ [] := by
  unfold clean
  split
  · simp
  · exact cleanFrom_ne_nil _ _

theorem goBase_append {d name : Str} (hn : name ≠ []) (hs : '/' ∉ name) :
    goBase (d ++ '/' :: name) = name := by
  have hrev : (d ++ '/' :: name).reverse = name.reverse ++ '/' :: d.reverse := by
    simp
  have hne : (d ++ '/' :: name) ≠ [] := by simp
  have hnr : name.reverse ≠ [] := by simpa using hn
  unfold goBase
  rw [if_neg hne, hrev]
  have hq : (name.reverse ++ '/' :: d.reverse).dropWhile (fun c => c == '/') =
      name.reverse ++ '/' :: d.reverse := by
    apply dropWhile_eq_self_of_head?
    intro c hc
    rw [head?_append_left hnr] at hc
    have hm := mem_of_head? hc
    rw [List.mem_reverse] at hm
    exact beq_eq_false_iff_ne.mpr (fun e => hs (e ▸ hm))
  rw [hq, if_neg (by simp)]
  have hall : ∀ c ∈ name.reverse, (fun c => !(c == '/')) c = true := by
    intro c hc
    rw [List.mem_reverse] at hc
    have hb : (c == '/') = false := beq_eq_false_iff_ne.mpr (fun e => hs (e ▸ hc))
    simp [hb]
  rw [takeWhile_append_all (by simp) hall]
  exact List.reverse_reverse name

theorem goBase_noslash {name : Str} (hn : name ≠ []) (hs : '/' ∉ name) :
    goBase name = name := by
  unfold goBase
  rw [if_neg hn]
  have hnr : name.reverse ≠ [] := by simpa using hn
  have hq : name.reverse.dropWhile (fun c => c == '/') = name.reverse := by
    apply dropWhile_eq_self_of_head?
    intro c hc
    have hm := mem_of_head? hc
    rw [List.mem_reverse] at hm
    exact beq_eq_false_iff_ne.mpr (fun e => hs (e ▸ hm))
  rw [hq, if_neg hnr]
  have hall : ∀ c ∈ name.reverse, (fun c => !(c == '/')) c = true := by
    intro c hc
    rw [List.mem_reverse] at hc
    have hb : (c == '/') = false := beq_eq_false_iff_ne.mpr (fun e => hs (e ▸ hc))
    simp [hb]
  rw [takeWhile_all hall]
  exact List.reverse_reverse name

theorem dirPart_append {d name : Str} (hs : '/' ∉ name) :
    dirPart (d ++ '/' :: name) = d ++ ['/'] := by
  unfold dirPart
  have hrev : (d ++ '/' :: name).reverse = name.reverse ++ '/' :: d.reverse := by
    simp
  rw [hrev]
  have hall : ∀ c ∈ name.reverse, (fun c => !(c == '/')) c = true := by
    intro c hc
    rw [List.mem_reverse] at hc
    have hb : (c == '/') = false := beq_eq_false_iff_ne.mpr (fun e => hs (e ▸ hc))
    simp [hb]
  rw [dropWhile_append_all hall, List.dropWhile_cons_of_neg (by simp)]
  simp

theorem dirPart_noslash {name : Str} (hs : '/' ∉ name) : dirPart name = [] := by
  unfold dirPart
  have hall : ∀ c ∈ name.reverse, (fun c => !(c == '/')) c = true := by
    intro c hc
    rw [List.mem_reverse] at hc
    have hb : (c == '/') = false := beq_eq_false_iff_ne.mpr (fun e => hs (e ▸ hc))
    simp [hb]
  rw [dropWhile_all_nil hall]
  rfl

theorem filteredComps_append {d name : Str} (hs : '/' ∉ name) (hn : name ≠ [])
    (hd1 : name ≠ ['.']) : filteredComps (d ++ '/' :: name) = filteredComps d ++ [name] := by
  unfold filteredComps
  rw [splitOnChar_append, List.filter_append, splitOnChar_single hs]
  congr 1
  have h1 : compKeep name = true := by
    unfold compKeep
    have e1 : name.isEmpty = false := by
      cases name with
      | nil => exact absurd rfl hn
      | cons a t => rfl
    have e2 : (name == ['.']) = false := beq_eq_false_iff_ne.mpr hd1
    rw [e1, e2]
    rfl
  simp [List.filter_cons, h1]

theorem clean_append_slash {d : Str} (hd : d ≠ []) : clean (d ++ ['/']) = clean d := by
  unfold clean
  rw [if_neg (by simp), if_neg hd]
  have hh : (d ++ ['/']).head? = d.head? := head?_append_left hd
  have hcs : filteredComps (d ++ ['/']) = filteredComps d := by
    unfold filteredComps
    have he : d ++ ['/'] = d ++ '/' :: [] := rfl
    rw [he, splitOnChar_append, List.filter_append]
    have : (splitOnChar '/' ([] : Str)).filter compKeep = [] := by decide
    rw [this, List.append_nil]
  rw [hh, hcs]

theorem cleanComps_concat {rooted : Bool} {cs : List Str} {name : Str}
    (h : name ≠ ['.', '.']) :
    cleanComps rooted (cs ++ [name]) = cleanComps rooted cs ++ [name] := by
  unfold cleanComps
  rw [List.foldl_append]
  simp only [List.foldl_cons, List.foldl_nil]
  unfold cleanStep
  rw [if_neg h]

theorem cleanComps_mem_ne_nil {rooted : Bool} : ∀ (cs : List Str) (acc : List Str),
    (∀ c ∈ cs, c ≠ []) → (∀ x ∈ acc, x ≠ []) →
    ∀ x ∈ cs.foldl (cleanStep rooted) acc, x ≠ [] := by
  intro cs
  induction cs with
  | nil => intro acc _ hacc x hx; exact hacc x hx
  | cons c t ih =>
    intro acc hcs hacc x hx
    rw [List.foldl_cons] at hx
    refine ih (cleanStep rooted acc c) (fun y hy => hcs y (List.mem_cons_of_mem c hy)) ?_ x hx
    intro y hy
    unfold cleanStep at hy
    by_cases h1 : c = ['.', '.']
    · rw [if_pos h1] at hy
      by_cases h2 : acc = []
      · rw [if_pos h2] at hy
        by_cases h3 : rooted = true
        · rw [if_pos h3] at hy
          simp at hy
        · rw [if_neg h3] at hy
          rw [List.mem_singleton] at hy
          subst hy
          rw [h1]
          simp
      · rw [if_neg h2] at hy
        by_cases h4 : acc.getLast? = some ['.', '.']
        · rw [if_pos h4] at hy
          rcases List.mem_append.mp hy with h | h
          · exact hacc y h
          · rw [List.mem_singleton] at h
            subst h
            rw [h1]
            simp
        · rw [if_neg h4] at hy
          exact hacc y ((List.dropLast_sublist acc).subset hy)
    · rw [if_neg h1] at hy
      rcases List.mem_append.mp hy with h | h
      · exact hacc y h
      · rw [List.mem_singleton] at h
        rw [h]
        exact hcs c (List.mem_cons_self c t)

theorem filteredComps_ne_nil (p : Str) : ∀ c ∈ filteredComps p, c ≠ [] := by
  intro c hc
  unfold filteredComps at hc
  have hck := List.of_mem_filter hc
  intro e
  subst e
  simp [compKeep] at hck

theorem goExt_no_slash (p : Str) : '/' ∉ goExt p := by
  unfold goExt
  dsimp only
  split
  · intro hmem
    rw [List.mem_reverse] at hmem
    rcases List.mem_append.mp hmem with h | h
    · have h3 : '/' ∈ p.reverse.takeWhile (fun c => !(c == '/')) :=
        (List.takeWhile_sublist _).subset h
      have h4 := List.mem_takeWhile_imp h3
      simp at h4
    · simp at h
  · simp

theorem cleanFrom_concat (rooted : Bool) (cs : List Str) {name : Str}
    (hn : name ≠ []) (hn2 : name ≠ ['.', '.']) (hcs : ∀ c ∈ cs, c ≠ []) :
    (rooted = false ∧ cleanComps rooted cs = [] ∧ cleanFrom rooted cs = ['.'] ∧
       cleanFrom rooted (cs ++ [name]) = name) ∨
    (rooted = true ∧ cleanComps rooted cs = [] ∧ cleanFrom rooted cs = ['/'] ∧
       cleanFrom rooted (cs ++ [name]) = '/' :: name) ∨
    (cleanComps rooted cs ≠ [] ∧
       cleanFrom rooted (cs ++ [name]) = cleanFrom rooted cs ++ '/' :: name) := by
  have hcc : cleanComps rooted (cs ++ [name]) = cleanComps rooted cs ++ [name] :=
    cleanComps_concat hn2
  by_cases hoc : cleanComps rooted cs = []
  · cases hr : rooted with
    | false =>
      left
      rw [hr] at hoc hcc
      refine ⟨rfl, hoc, ?_, ?_⟩
      · simp [cleanFrom, hoc, joinWith]
      · simp only [cleanFrom, hcc, hoc, List.nil_append, joinWith]
        simp only [Bool.false_eq_true, if_false, List.nil_append]
        rw [if_neg hn]
    | true =>
      right; left
      rw [hr] at hoc hcc
      refine ⟨rfl, hoc, ?_, ?_⟩
      · simp [cleanFrom, hoc, joinWith]
      · simp only [cleanFrom, hcc, hoc, List.nil_append, joinWith, if_pos rfl]
        simp
  · right; right
    refine ⟨hoc, ?_⟩
    have hmem : ∀ x ∈ cleanComps rooted cs, x ≠ [] :=
      cleanComps_mem_ne_nil cs [] hcs (by simp)
    have hjne : joinWith '/' (cleanComps rooted cs) ≠ [] :=
      joinWith_ne_nil hoc hmem
    have hsd : ((if rooted = true then (['/'] : Str) else []) ++
        joinWith '/' (cleanComps rooted cs)) ≠ [] := by
      intro e
      rw [List.append_eq_nil] at e
      exact hjne e.2
    have hjc : joinWith '/' (cleanComps rooted cs ++ [name]) =
        joinWith '/' (cleanComps rooted cs) ++ '/' :: name :=
      joinWith_concat hoc name
    simp only [cleanFrom, hcc, hjc]
    rw [if_neg (by
      intro e
      rw [List.append_eq_nil] at e
      rcases e with ⟨_, e2⟩
      rw [List.append_eq_nil] at e2
      exact List.noConfusion e2.2)]
    rw [if_neg hsd, List.append_assoc]

theorem prefix_of_append (u v w : Str) (h : u ++ v = w) (e : Str) :
    u.isPrefixOf (w ++ e) = true := by
  rw [List.isPrefixOf_iff_prefix]
  exact ⟨v ++ e, by rw [← List.append_assoc, h]⟩

theorem sibling_path (p : Str) (h1 : clean (goDir p) = goDir p) (h2 : '/' ∉ goBase p) :
    goDir (siblingOutPath p) = goDir p ∧
    goBase (siblingOutPath p) = trimSuffixStr (goBase p) (goExt p) ++ scSuffix ++ goExt p := by
  unfold siblingOutPath
  set d := goDir p with hd
  set nm := trimSuffixStr (goBase p) (goExt p) ++ scSuffix ++ goExt p with hnm
  have hns : '/' ∉ nm := by
    rw [hnm]
    intro hmem
    rcases List.mem_append.mp hmem with h | h
    · rcases List.mem_append.mp h with h' | h'
      · apply h2
        unfold trimSuffixStr at h'
        split at h'
        · exact List.take_subset _ _ h'
        · exact h'
      · exact absurd h' (by decide)
    · exact goExt_no_slash p h
  have hlen : 3 ≤ nm.length := by
    rw [hnm]
    simp only [List.length_append, scSuffix, List.length_cons, List.length_nil]
    omega
  have hnn : nm ≠ [] := by
    intro e
    rw [e] at hlen
    simp at hlen
  have hn1 : nm ≠ ['.'] := by
    intro e
    rw [e] at hlen
    simp at hlen
  have hn2 : nm ≠ ['.', '.'] := by
    intro e
    rw [e] at hlen
    simp at hlen
  have hdn : d ≠ [] := by
    rw [hd]
    unfold goDir
    exact clean_ne_nil _
  have hjoin : goJoin2 d nm =
      cleanFrom (decide (d.head? = some '/')) (filteredComps d ++ [nm]) := by
    unfold goJoin2
    rw [if_neg hdn]
    unfold clean
    rw [if_neg (by simp), head?_append_left hdn, filteredComps_append hns hnn hn1]
  have hcd : cleanFrom (decide (d.head? = some '/')) (filteredComps d) = d := by
    have hc := h1
    unfold clean at hc
    rw [if_neg hdn] at hc
    exact hc
  rcases cleanFrom_concat (decide (d.head? = some '/')) (filteredComps d) hnn hn2
      (filteredComps_ne_nil d) with
    ⟨hr, hoc, hD, hres⟩ | ⟨hr, hoc, hD, hres⟩ | ⟨hoc, hres⟩
  · -- relative path whose directory part cleans to "."
    have hdd : d = ['.'] := by rw [← hcd, hD]
    rw [hjoin, hres]
    constructor
    · unfold goDir
      rw [dirPart_noslash hns, hdd]
      decide
    · exact goBase_noslash hnn hns
  · -- root directory
    have hdd : d = ['/'] := by rw [← hcd, hD]
    rw [hjoin, hres]
    constructor
    · unfold goDir
      have hdp : dirPart ('/' :: nm) = ['/'] := by
        have hda := dirPart_append (d := []) hns
        simpa using hda
      rw [hdp, hdd]
      decide
    · have hba := goBase_append (d := []) hnn hns
      simpa using hba
  · -- ordinary directory
    rw [hjoin, hres, hcd]
    constructor
    · unfold goDir
      rw [dirPart_append hns, clean_append_slash hdn]
      exact h1
    · exact goBase_append hnn hns

/-- Claim C1, counterexample: a run in which opening the input file fails is
an error run, yet the program's exit status is 0, not non-zero — every
failure branch of `main` prints and returns, and a return from Go's `main`
exits with status 0. -/
theorem claim1_counterexample :
    encounteredError envOpenFail = true ∧ (runMain envOpenFail).1 = 0 := by decide

/-- Claim C1, amended: every run exits with status 0 — on success,
cancellation and error alike — and every error encountered is still
reported by a printed message starting with `Error`. -/
theorem claim1_amended (env : RunEnv) :
    (runMain env).1 = 0 ∧
    (encounteredError env = true →
      ∃ m ∈ (runMain env).2, errTag.isPrefixOf m = true) := by
  obtain ⟨pe, pp, oe, re, w1, w2, w3⟩ := env
  constructor
  · cases pe <;> cases oe <;> cases re <;> cases w1 <;> cases w2 <;> cases w3 <;>
      by_cases hp : pp = [] <;> simp [runMain, hp]
  · intro herr
    cases pe with
    | some e =>
      refine ⟨"Error selecting input file: ".toList ++ e, ?_, ?_⟩
      · simp [runMain]
      · exact prefix_of_append errTag " selecting input file: ".toList "Error selecting input file: ".toList (by decide) e
    | none =>
      by_cases hp : pp = []
      · simp [encounteredError, hp] at herr
      · cases oe with
        | some e =>
          refine ⟨"Error opening input file: ".toList ++ e, ?_, ?_⟩
          · simp [runMain, hp]
          · exact prefix_of_append errTag " opening input file: ".toList "Error opening input file: ".toList (by decide) e
        | none =>
          cases re with
          | some e =>
            refine ⟨"Error reading input file: ".toList ++ e, ?_, ?_⟩
            · simp [runMain, hp]
            · exact prefix_of_append errTag " reading input file: ".toList "Error reading input file: ".toList (by decide) e
          | none =>
            cases w1 with
            | some e =>
              refine ⟨"Error writing to Chinese sentences file: ".toList ++ e, ?_, ?_⟩
              · simp [runMain, hp]
              · exact prefix_of_append errTag " writing to Chinese sentences file: ".toList "Error writing to Chinese sentences file: ".toList (by decide) e
            | none =>
              cases w2 with
              | some e =>
                refine ⟨"Error writing to English sentences file: ".toList ++ e, ?_, ?_⟩
                · simp [runMain, hp]
                · exact prefix_of_append errTag " writing to English sentences file: ".toList "Error writing to English sentences file: ".toList (by decide) e
              | none =>
                cases w3 with
                | some e =>
                  refine ⟨"Error writing to Combined sentences file: ".toList ++ e, ?_, ?_⟩
                  · simp [runMain, hp]
                  · exact prefix_of_append errTag " writing to Combined sentences file: ".toList "Error writing to Combined sentences file: ".toList (by decide) e
                | none =>
                  simp [encounteredError, hp] at herr

/-- Witness for the amended claim C1, at the concrete failing-open run. -/
theorem claim1_witness :
    ∃ m ∈ (runMain envOpenFail).2, errTag.isPrefixOf m = true :=
  (claim1_amended envOpenFail).2 (by decide)

/-- Claim C2: every line of each of the three emitted category files is
non-empty after trimming, carries no leading or trailing whitespace, and is
not matched end-to-end by the punctuation-only class. -/
theorem claim2 (lines : List Str) (out : Str)
    (hout : out = chineseOutput lines ∨ out = englishOutput lines ∨
      out = combinedOutput lines) :
    ∀ l ∈ fileLines out, trimSpace l = l ∧ l ≠ [] ∧ punctOnlyMatch l = false := by
  have key : ∀ segs, ∀ l ∈ fileLines (mainPipeline segs),
      trimSpace l = l ∧ l ≠ [] ∧ punctOnlyMatch l = false := by
    intro segs l hl
    rw [mainPipeline_eq_joinWith] at hl
    cases hks : mainSurvivors segs with
    | nil =>
      rw [hks] at hl
      simp [fileLines, joinWith] at hl
    | cons k ks =>
      have hgood : ∀ k' ∈ mainSurvivors segs,
          trimSpace k' = k' ∧ k' ≠ [] ∧ punctOnlyMatch k' = false ∧ '\n' ∉ k' :=
        fun k' hk' => mem_filterMap_keepContent hk'
      rw [hks] at hl hgood
      have hne : joinWith '\n' (k :: ks) ≠ [] :=
        joinWith_ne_nil (by simp) (fun x hx => (hgood x hx).2.1)
      rw [fileLines, if_neg hne,
        splitOnChar_joinWith (by simp) (fun x hx => (hgood x hx).2.2.2)] at hl
      exact ⟨(hgood l hl).1, (hgood l hl).2.1, (hgood l hl).2.2.1⟩
  rcases hout with h | h | h
  · subst h; exact key (driverAccum lines).1
  · subst h; exact key (driverAccum lines).2.1
  · subst h; exact key (driverAccum lines).2.2

/-- Witness for claim C2, at a concrete one-line input. -/
theorem claim2_witness :
    trimSpace "ab".toList = "ab".toList ∧ "ab".toList ≠ ([] : Str) ∧
      punctOnlyMatch "ab".toList = false :=
  claim2 ["ab".toList] (englishOutput ["ab".toList]) (Or.inr (Or.inl rfl))
    "ab".toList (by decide)

/-- Claim C3, counterexample: on the buffer `“` the splitter inserts a line
terminator (the code's class contains the curly quote U+201C), while the
claimed transformation — insertion exactly after the characters of the
spec's literal set, which carries only the ASCII quotation mark — leaves
the buffer unchanged. -/
theorem claim3_counterexample :
    splitAfterPunctuation ['“'] ≠ claimedInsert ['“'] ∧
    splitAfterPunctuation ['“'] = ['“', '\n'] ∧ claimedInsert ['“'] = ['“'] := by decide

/-- Claim C3, amended: the splitter equals insertion of a terminator after
every occurrence of every character of the spec's set extended with the
curly quotation marks `“` and `”`, and changes nothing else. -/
theorem claim3_amended (s : Str) : splitAfterPunctuation s = amendedInsert s := by
  induction s with
  | nil => rfl
  | cons c l ih =>
    simp only [amendedInsert] at ih ⊢
    by_cases hm : c ∈ amendedSplitterChars
    · have hcls : splitterClass c = true := by
        rw [splitterClass_iff_amended]
        exact decide_eq_true hm
      simp [splitAfterPunctuation, List.flatMap_cons, hcls, hm, ih]
    · have hcls : splitterClass c = false := by
        rw [splitterClass_iff_amended]
        exact decide_eq_false hm
      simp [splitAfterPunctuation, List.flatMap_cons, hcls, hm, ih]

/-- Claim C4: the Combined list is, per input line, the Chinese-class
matches followed by the Latin-class matches, input line order preserved. -/
theorem claim4 (lines : List Str) :
    (driverAccum lines).2.2 =
      lines.flatMap (fun l => findRuns chineseClass l ++ findRuns latinClass l) := by
  unfold driverAccum
  rw [driverAccum_go]
  simp

/-- Claim C5: the cleaner (punctuation-only filter, then empty-line filter)
is idempotent. -/
theorem claim5 (content : Str) : cleaner (cleaner content) = cleaner content := by
  have hks : ∀ s : Str, ∀ k ∈ (splitOnChar '\n' s).filterMap keepContentLine,
      trimSpace k = k ∧ k ≠ [] ∧ punctOnlyMatch k = false ∧ '\n' ∉ k :=
    fun _ k hk => mem_filterMap_keepContent hk
  have hclean_eq : ∀ s, cleaner s = removePunctuationOnlyLines s := by
    intro s
    unfold cleaner
    have hr : removePunctuationOnlyLines s =
        joinWith '\n' ((splitOnChar '\n' s).filterMap keepContentLine) := rfl
    rw [hr]
    exact removeEmptyLines_joinWith (fun k hk =>
      ⟨(hks s k hk).1, (hks s k hk).2.1, (hks s k hk).2.2.2⟩)
  have hrpol_idem : ∀ s, removePunctuationOnlyLines (removePunctuationOnlyLines s) =
      removePunctuationOnlyLines s := by
    intro s
    have hr : removePunctuationOnlyLines s =
        joinWith '\n' ((splitOnChar '\n' s).filterMap keepContentLine) := rfl
    rw [hr]
    exact removePunctuationOnlyLines_joinWith (hks s)
  rw [hclean_eq, hclean_eq, hrpol_idem]

/-- Claim C6: the splitter never decreases the line count. -/
theorem claim6 (content : Str) :
    numLines content ≤ numLines (splitAfterPunctuation content) := by
  unfold numLines
  rw [length_splitOnChar, length_splitOnChar]
  have := count_splitAfterPunctuation content
  omega

/-- Claim C7: for each of the two run classes, the extractor returns an
ordered list of non-empty maximal same-class segments whose concatenation
is a subsequence of the line. -/
theorem claim7 (L : Str) (cls : Char → Bool)
    (hcls : cls = chineseClass ∨ cls = latinClass) :
    (∀ s ∈ findRuns cls L, s ≠ [] ∧ ∀ c ∈ s, cls c = true) ∧
    ((findRuns cls L).flatten.Sublist L) ∧
    MaximalDecomp cls L (findRuns cls L) := by
  obtain ⟨g0, ps, hseg, hL2, hg0, hps, hinter⟩ := runs_decomp cls L.length L (le_refl _)
  refine ⟨?_, ?_, ⟨g0, ps, hseg, hL2, hg0, hps, hinter⟩⟩
  · intro s hs
    rw [hseg, List.mem_map] at hs
    obtain ⟨q, hq, hqs⟩ := hs
    obtain ⟨hq1, hq2, _⟩ := hps q hq
    exact ⟨hqs ▸ hq1, hqs ▸ hq2⟩
  · rw [hseg, hL2]
    exact (flatten_map_fst_sublist ps).trans (List.sublist_append_right g0 _)

/-- Witness for claim C7, at a concrete line and the Chinese class. -/
theorem claim7_witness :
    (∀ s ∈ findRuns chineseClass "a你b,".toList, s ≠ [] ∧
      ∀ c ∈ s, chineseClass c = true) ∧
    ((findRuns chineseClass "a你b,".toList).flatten.Sublist "a你b,".toList) ∧
    MaximalDecomp chineseClass "a你b,".toList (findRuns chineseClass "a你b,".toList) :=
  claim7 "a你b,".toList chineseClass (Or.inl rfl)

/-- Claim C8: on the single input line `A。B。` the Chinese pipeline
produces the empty string. -/
theorem claim8 : chineseOutput ["A。B。".toList] = [] := by decide

/-- Claim C9: the sibling mode equals newline insertion after the
restricted Chinese-punctuation subset followed by the empty-line filter
alone; its output path lies in the input's directory with basename
`stem ++ "_sc" ++ ext`; and the concrete input `第一句。第二句！` yields the
two sentences on separate lines with no trailing blank line. -/
theorem claim9 (content p : Str) :
    scContent content = scSpecContent content ∧
    scContent "第一句。第二句！".toList = "第一句。\n第二句！".toList ∧
    (clean (goDir p) = goDir p → '/' ∉ goBase p →
      goDir (siblingOutPath p) = goDir p ∧
      goBase (siblingOutPath p) =
        trimSuffixStr (goBase p) (goExt p) ++ scSuffix ++ goExt p) :=
  ⟨scContent_eq_spec content, by decide, fun h1 h2 => sibling_path p h1 h2⟩

/-- Witness for claim C9, at a concrete input path. -/
theorem claim9_witness :
    goDir (siblingOutPath "/home/u/book.txt".toList) = goDir "/home/u/book.txt".toList ∧
    goBase (siblingOutPath "/home/u/book.txt".toList) =
      trimSuffixStr (goBase "/home/u/book.txt".toList) (goExt "/home/u/book.txt".toList) ++
        scSuffix ++ goExt "/home/u/book.txt".toList :=
  (claim9 [] "/home/u/book.txt".toList).2.2 (by decide) (by decide)

/-- Claim C10: every output file's content is the survivors joined with a
newline separator only — so it never ends in a line terminator, and an
input with no surviving lines yields an empty file (`joinWith` of `[]` is
`[]`) — for the three category files and the sibling-mode file alike. -/
theorem claim10 (segs : List Str) (content : Str) :
    mainPipeline segs = joinWith '\n' (mainSurvivors segs) ∧
    ((mainPipeline segs).getLast? == some '\n') = false ∧
    scContent content = joinWith '\n' (scCleanedLines content) ∧
    ((scContent content).getLast? == some '\n') = false := by
  have h1 := mainPipeline_eq_joinWith segs
  have hgood : ∀ k ∈ mainSurvivors segs, trimSpace k = k ∧ k ≠ [] := fun k hk =>
    ⟨(mem_filterMap_keepContent hk).1, (mem_filterMap_keepContent hk).2.1⟩
  refine ⟨h1, ?_, rfl, ?_⟩
  · rw [beq_eq_false_iff_ne]
    intro hlast
    rw [h1] at hlast
    obtain ⟨k, hk, hkl⟩ := getLast?_joinWith_mem (fun l hl => (hgood l hl).2) hlast
    have hfix := (hgood k hk).1
    have hsp : isGoSpace '\n' = false := trimSpace_getLast? (by rw [hfix]; exact hkl)
    exact absurd hsp (by decide)
  · rw [beq_eq_false_iff_ne]
    intro hlast
    have hgood2 : ∀ k ∈ scCleanedLines content, trimSpace k = k ∧ k ≠ [] := by
      intro k hk
      unfold scCleanedLines at hk
      rw [List.mem_filterMap] at hk
      obtain ⟨line, _, hf⟩ := hk
      simp only [keepLine] at hf
      by_cases he : trimSpace line = []
      · rw [if_pos he] at hf
        simp at hf
      · rw [if_neg he] at hf
        have hkeq : trimSpace line = k := by injection hf
        exact ⟨by rw [← hkeq]; exact trimSpace_idem line, by rw [← hkeq]; exact he⟩
    obtain ⟨k, hk, hkl⟩ := getLast?_joinWith_mem (fun l hl => (hgood2 l hl).2) hlast
    have hfix := (hgood2 k hk).1
    have hsp : isGoSpace '\n' = false := trimSpace_getLast? (by rw [hfix]; exact hkl)
    exact absurd hsp (by decide)

end TxtSentencers
